import Mathlib

/-!
# Verification of leptos-chartistry's data-projection and series-aggregation core

Shallow embedding of the series/data aggregation (`src/series/data.rs`), the
axis-marker positioning (`src/inner/axis_marker.rs`) and the chart edge
preparation (`src/chart.rs`) of the leptos-chartistry repository, together
with proofs of the specification claims about them.

Floating-point numbers (`f64`) are modelled by the type `F` below: a rational
payload plus the non-finite values NaN, +inf and -inf, with IEEE-754
comparison semantics (any comparison with NaN is false).  Exact rational
arithmetic stands in for rounded binary arithmetic.
-/

/-- Model of `f64`: rationals plus the IEEE-754 non-finite values. -/
inductive F where
  | nan : F
  | inf : F
  | ninf : F
  | fin : ℚ → F
deriving DecidableEq, Repr

namespace F

/-- IEEE-754 `<` on `f64`: every comparison involving NaN is false,
`-inf < finite < +inf`. -/
def lt : F → F → Bool
  | nan, _ => false
  | _, nan => false
  | ninf, ninf => false
  | ninf, _ => true
  | _, ninf => false
  | inf, _ => false
  | fin _, inf => true
  | fin a, fin b => decide (a < b)

/-- Model of `f64::is_finite`. -/
def isFinite : F → Bool
  | fin _ => true
  | _ => false

/-- IEEE-754 subtraction (exact, no rounding in this model). -/
def sub : F → F → F
  | nan, _ => nan
  | _, nan => nan
  | inf, inf => nan
  | inf, _ => inf
  | ninf, ninf => nan
  | ninf, _ => ninf
  | fin _, inf => ninf
  | fin _, ninf => inf
  | fin a, fin b => fin (a - b)

/-- Model of `f64::total_cmp`'s strict-less-than: the total order
`-inf < finite < +inf < NaN` (the NaN arising here is positive). -/
def totalLt : F → F → Bool
  | _, nan => true
  | nan, _ => false
  | ninf, ninf => false
  | ninf, _ => true
  | _, ninf => false
  | inf, _ => false
  | fin _, inf => true
  | fin a, fin b => decide (a < b)

end F

/-!
## `UseData::nearest_index` (src/series/data.rs lines 321-350)

`positions_x.partition_point(|&v| v < pos_x)` is Rust's binary search for the
first index at which the predicate fails.  We embed the loop of
`slice::partition_point` / `binary_search_by` literally, with a fuel argument
equal to the slice length (the loop halves the gap, so `len` iterations always
suffice).
-/

/-- The binary-search loop of Rust's `slice::partition_point`:
`while left < right { mid = left + (right-left)/2; if pred(a[mid]) { left = mid+1 } else { right = mid } }`. -/
def ppLoop (l : List F) (pred : F → Bool) : Nat → Nat → Nat → Nat
  | 0, left, _ => left
  | fuel + 1, left, right =>
      if left < right then
        let mid := left + (right - left) / 2
        if pred (l.getD mid F.nan) then ppLoop l pred fuel (mid + 1) right
        else ppLoop l pred fuel left mid
      else left

/-- Model of `slice::partition_point`. -/
def partitionPoint (l : List F) (pred : F → Bool) : Nat :=
  ppLoop l pred l.length 0 l.length

/-- `UseData::nearest_index` (src/series/data.rs lines 321-350): binary-search
the ascending positions for the first index `≥` the query, then pick whichever
of it and its predecessor is closer (`ahead < before` strictly). -/
def nearest_index (positions : List F) (pos_x : F) : Option Nat :=
  if positions.isEmpty then none
  else
    let index := partitionPoint positions (fun v => F.lt v pos_x)
    if index = 0 then some 0
    else if index = positions.length then some (index - 1)
    else
      let ahead := F.sub (positions.getD index F.nan) pos_x
      let before := F.sub pos_x (positions.getD (index - 1) F.nan)
      if F.lt ahead before then some index else some (index - 1)

/-- `UseData::nearest_position_x` (src/series/data.rs lines 365-375):
the position at the nearest index, or the `f64::NAN` sentinel if no data. -/
def nearest_position_x (positions : List F) (pos_x : F) : F :=
  match nearest_index positions pos_x with
  | some index => positions.getD index F.nan
  | none => F.nan

/-!
## `Series::data_range` (src/series/data.rs lines 299-317)

`positions.iter().enumerate().fold(None, ...)` tracking the indexes of the
minimal and maximal finite position.  The enumerated fold is embedded as a
recursion carrying the running index.
-/

/-- One step of the `data_range` fold: skip non-finite positions, otherwise
update the running (min-index, max-index) pair using `f64` `<` / `>` against
the positions at the stored indexes. -/
def drStep (positions : List F) (acc : Option (Nat × Nat)) (i : Nat) (pos : F) :
    Option (Nat × Nat) :=
  if pos.isFinite then
    match acc with
    | some (mn, mx) =>
        some (if F.lt pos (positions.getD mn F.nan) then i else mn,
              if F.lt (positions.getD mx F.nan) pos then i else mx)
    | none => some (i, i)
  else acc

/-- The enumerated fold of `data_range`, with `i` the index of the head of
`tail` within the full `positions` list. -/
def drGo (positions : List F) : Nat → List F → Option (Nat × Nat) → Option (Nat × Nat)
  | _, [], acc => acc
  | i, pos :: tail, acc => drGo positions (i + 1) tail (drStep positions acc i pos)

/-- The (min-index, max-index) pair computed by `Series::data_range`. -/
def dataRangeIndexes (positions : List F) : Option (Nat × Nat) :=
  drGo positions 0 positions none

/-- `Series::data_range` (src/series/data.rs lines 299-317): the data values at
the indexes of the minimal and maximal finite positions; `None` if no finite
position exists. -/
def data_range {V : Type} [Inhabited V] (positions : List F) (data : List V) :
    Option (V × V) :=
  (dataRangeIndexes positions).map fun mm => (data.getD mm.1 default, data.getD mm.2 default)

/-!
## `range_x` and `range_y` (src/series/data.rs lines 196-269)
-/

/-- Expansion of the specified min/max overrides into a single optional range,
exactly the `match` at src/series/data.rs lines 201-206: a single-sided
override becomes a collapsed `(v, v)` range. -/
def specifiedRange {V : Type} : Option V → Option V → Option (V × V)
  | some mn, some mx => some (mn, mx)
  | some mn, none => some (mn, mn)
  | none, some mx => some (mx, mx)
  | none, none => none

/-- The combined X range (src/series/data.rs lines 196-230): data-derived range
and expanded override combined componentwise, comparing by position. -/
def range_x {V : Type} [Inhabited V] (posf : V → F) (positions : List F) (data : List V)
    (min_x max_x : Option V) : Option (V × V) :=
  match data_range positions data, specifiedRange min_x max_x with
  | none, none => none
  | some r, none => some r
  | none, some s => some s
  | some (min_r, max_r), some (min_s, max_s) =>
      some (if F.lt (posf min_r) (posf min_s) then min_r else min_s,
            if F.lt (posf max_s) (posf max_r) then max_r else max_s)

/-- One step of Rust's `Iterator::min_by`: keep the earlier element unless the
new one is strictly smaller under the comparator. -/
def minStep {V : Type} (posf : V → F) (acc : Option V) (a : V) : Option V :=
  match acc with
  | none => some a
  | some m => if F.totalLt (posf a) (posf m) then some a else some m

/-- One step of Rust's `Iterator::max_by`: replace the held element unless the
new one is strictly smaller under the comparator (so ties keep the later). -/
def maxStep {V : Type} (posf : V → F) (acc : Option V) (a : V) : Option V :=
  match acc with
  | none => some a
  | some m => if F.totalLt (posf a) (posf m) then some m else some a

/-- Rust's `Iterator::min_by` with comparator `a.position().total_cmp(&b.position())`:
the first element attaining the minimum. -/
def minByPos {V : Type} (posf : V → F) (l : List V) : Option V :=
  l.foldl (minStep posf) none

/-- Rust's `Iterator::max_by` with comparator `a.position().total_cmp(&b.position())`:
the last element attaining the maximum. -/
def maxByPos {V : Type} (posf : V → F) (l : List V) : Option V :=
  l.foldl (maxStep posf) none

/-- The combined Y range (src/series/data.rs lines 250-269): chain every line's
data-derived min with the specified min (and likewise for max), flatten away the
`None`s, and take `min_by` / `max_by` on position; `None` unless both sides
produced a value (`min.zip(max)`). -/
def range_y {V : Type} (posf : V → F) (lineRanges : List (Option (V × V)))
    (min_y max_y : Option V) : Option (V × V) :=
  let mins := ((lineRanges.map (Option.map Prod.fst)) ++ [min_y]).reduceOption
  let maxes := ((lineRanges.map (Option.map Prod.snd)) ++ [max_y]).reduceOption
  (minByPos posf mins).bind fun mn => (maxByPos posf maxes).map fun mx => (mn, mx)

/-!
## Data and position arrays (src/series/data.rs lines 148-193)

`data_x` maps `get_x` over the records; each `data_y` line maps its getter
over the records; `positions_x` and each `positions_y` line map `position()`
over the corresponding data array.
-/

/-- `data_x` (src/series/data.rs lines 148-151). -/
def data_x {T X : Type} (get_x : T → X) (data : List T) : List X :=
  data.map get_x

/-- One line of `data_y_lines` (src/series/data.rs lines 152-176). -/
def data_y_line {T Y : Type} (get_y : T → Y) (data : List T) : List Y :=
  data.map get_y

/-- `positions_x` (src/series/data.rs lines 181-183). -/
def positions_x {X : Type} (posf : X → F) (dataX : List X) : List F :=
  dataX.map posf

/-- One line of `positions_y_lines` (src/series/data.rs lines 184-193). -/
def positions_y_line {Y : Type} (posf : Y → F) (dataY : List Y) : List F :=
  dataY.map posf

/-!
## The `Position` trait (src/series/data.rs lines 397-411)

`f64` positions are the identity; `DateTime` positions are
`timestamp() as f64 + timestamp_subsec_nanos() as f64 / 1e9`.  A `DateTime`
instant is modelled by its total nanoseconds since the Unix epoch.
-/

/-- `impl Position for f64` (src/series/data.rs lines 401-405). -/
def positionF64 (x : ℚ) : ℚ := x

/-- `chrono::DateTime::timestamp`: whole seconds since the epoch (floor). -/
def dtTimestamp (nanos : ℤ) : ℤ := nanos / 1000000000

/-- `chrono::DateTime::timestamp_subsec_nanos`: nanoseconds past the whole
second, in `[0, 1e9)`. -/
def dtSubsecNanos (nanos : ℤ) : ℤ := nanos % 1000000000

/-- `impl Position for DateTime` (src/series/data.rs lines 407-411). -/
def positionDateTime (nanos : ℤ) : ℚ :=
  (dtTimestamp nanos : ℚ) + (dtSubsecNanos nanos : ℚ) / 1000000000

/-!
## Bounds and Projection

`bounds.rs` and `projection.rs` are not part of the provided sources (only
their callers in src/series/data.rs, src/inner/axis_marker.rs and
src/leptos-chartistry/src/chart.rs are), so they are modelled from the spec.
-/

/-- Modelled from the spec: axis-aligned rectangle (`bounds.rs` is not under
src/); `{left, top, right, bottom}` in pixel units. -/
structure Bounds where
  left : ℚ
  top : ℚ
  right : ℚ
  bottom : ℚ
deriving DecidableEq, Repr

namespace Bounds

/-- Modelled from the spec: `Bounds::from_points` normalizes argument order so
that `left ≤ right` and `top ≤ bottom`. -/
def from_points (x0 y0 x1 y1 : ℚ) : Bounds :=
  ⟨min x0 x1, min y0 y1, max x0 x1, max y0 y1⟩

def width (b : Bounds) : ℚ := b.right - b.left

def height (b : Bounds) : ℚ := b.bottom - b.top

/-- Modelled from the spec: edge accessors used by the axis marker. -/
def left_x (b : Bounds) : ℚ := b.left

def right_x (b : Bounds) : ℚ := b.right

def top_y (b : Bounds) : ℚ := b.top

def bottom_y (b : Bounds) : ℚ := b.bottom

end Bounds

/-- Modelled from the spec: `Projection` (`projection.rs` is not under src/) is
built from exactly the finalized inner pixel `Bounds` and the data-position
`position_range` `Bounds`. -/
structure Projection where
  bounds : Bounds
  range : Bounds
deriving DecidableEq, Repr

namespace Projection

/-- Modelled from the spec: `Projection::data_to_svg`.  Affine map from
data-position space to SVG pixel space; the horizontal axis is direct, the
vertical axis is mirrored (data Y grows upward, SVG Y grows downward); a
degenerate domain (zero width or height) maps every value to the center of the
corresponding pixel span instead of dividing by zero. -/
def data_to_svg (p : Projection) (x y : ℚ) : ℚ × ℚ :=
  (if p.range.width = 0 then p.bounds.left + p.bounds.width / 2
   else p.bounds.left + (x - p.range.left) * p.bounds.width / p.range.width,
   if p.range.height = 0 then p.bounds.top + p.bounds.height / 2
   else p.bounds.top + (p.range.bottom - y) * p.bounds.height / p.range.height)

/-- Modelled from the spec: `Projection::svg_to_data`, the inverse affine map
from SVG pixel space back to data-position space. -/
def svg_to_data (p : Projection) (sx sy : ℚ) : ℚ × ℚ :=
  (p.range.left + (sx - p.bounds.left) * p.range.width / p.bounds.width,
   p.range.bottom - (sy - p.bounds.top) * p.range.height / p.bounds.height)

end Projection

/-!
## Axis marker position (src/inner/axis_marker.rs lines 84-106)
-/

/-- The four chart edges (`edge.rs`, as used by src/inner/axis_marker.rs). -/
inductive Edge where
  | top
  | right
  | bottom
  | left
deriving DecidableEq, Repr

/-- `Placement` (src/inner/axis_marker.rs lines 14-18). -/
inductive Placement where
  | edge
  | zero
deriving DecidableEq, Repr

/-- The `pos` signal of the `AxisMarker` component (src/inner/axis_marker.rs
lines 84-106): the `(x1, y1, x2, y2)` endpoints of the marker line. -/
def axisMarkerPos (placement : Placement) (edge : Edge) (proj : Projection) :
    ℚ × ℚ × ℚ × ℚ :=
  let b := proj.bounds
  let top := b.top_y
  let right := b.right_x
  let bottom := b.bottom_y
  let left := b.left_x
  match placement with
  | .edge =>
      match edge with
      | .top => (left, top, right, top)
      | .bottom => (left, bottom, right, bottom)
      | .left => (left, bottom, left, top)
      | .right => (right, bottom, right, top)
  | .zero =>
      let z := proj.data_to_svg 0 0
      match edge with
      | .top => (left, z.2, right, z.2)
      | .bottom => (left, z.2, right, z.2)
      | .left => (z.1, bottom, z.1, top)
      | .right => (z.1, bottom, z.1, top)

/-- `AxisMarker::horizontal_zero` (src/inner/axis_marker.rs lines 45-47):
bottom edge, zero placement. -/
def horizontalZeroPos (proj : Projection) : ℚ × ℚ × ℚ × ℚ :=
  axisMarkerPos Placement.zero Edge.bottom proj

/-!
## Chart edge preparation and composition (src/leptos-chartistry/src/chart.rs
lines 131-135)

The chart component reverses the top and left decoration lists before handing
them to the layout engine ("Edges are added top to bottom, left to right.
Layout composes inside out"), and passes the right and bottom lists unchanged.
The composition engine itself (`layout/`) is not under src/ and is modelled
from the spec.
-/

/-- `Chart` edge list preparation (src/leptos-chartistry/src/chart.rs lines
131-135): top and left are reversed, right and bottom passed as declared. -/
def chartPrepareEdges {A B : Type} (top : List A) (right : List B)
    (bottom : List A) (left : List B) : List A × List B × List A × List B :=
  (top.reverse, right, bottom, left.reverse)

/-- Modelled from the spec: the edge composition engine (`layout/` is not under
src/).  For the top edge it peels horizontal strips from the chart boundary
inward: the decoration nearest the chart boundary is laid out first, each one
shrinking the working rectangle by its own thickness.  Given thicknesses in
boundary-to-plot order starting at `y`, it returns each decoration's
`(top, bottom)` strip. -/
def stackFromBoundary (y : ℚ) : List ℚ → List (ℚ × ℚ)
  | [] => []
  | t :: ts => (y, y + t) :: stackFromBoundary (y + t) ts

/-- Modelled from the spec: composing one edge whose list is ordered inside out
(plot-to-boundary), as the chart hands it over after `chartPrepareEdges`;
strips are returned aligned with the input order. -/
def composeTopEdge (outerTop : ℚ) (insideOut : List ℚ) : List (ℚ × ℚ) :=
  (stackFromBoundary outerTop insideOut.reverse).reverse

/-- The rendered strips of the declared top decoration list: the chart reverses
the declared list (src/leptos-chartistry/src/chart.rs line 134) and the engine
composes it inside out; the result is re-aligned to declaration order. -/
def chartTopStrips (outerTop : ℚ) (declared : List ℚ) : List (ℚ × ℚ) :=
  (composeTopEdge outerTop (chartPrepareEdges declared [] [] ([] : List ℚ)).1).reverse

/-- The top coordinate of the plot area once the declared top decorations have
consumed their thicknesses. -/
def plotTopAfter (outerTop : ℚ) (declared : List ℚ) : ℚ :=
  outerTop + declared.sum

/-- Modelled from the spec's asserted semantics for claim C3: the combined Y
range computed *identically* to the X-range reconciliation — the per-line
ranges folded into one componentwise data range, then combined with the
expanded specified override exactly as `range_x` combines. -/
def range_y_asserted {V : Type} (posf : V → F) (lineRanges : List (Option (V × V)))
    (min_y max_y : Option V) : Option (V × V) :=
  let dataRange := lineRanges.reduceOption.foldl
    (fun acc r =>
      match acc with
      | none => some r
      | some (a, b) =>
          some (if F.lt (posf r.1) (posf a) then r.1 else a,
                if F.lt (posf b) (posf r.2) then r.2 else b))
    none
  match dataRange, specifiedRange min_y max_y with
  | none, none => none
  | some r, none => some r
  | none, some s => some s
  | some (a, b), some (s1, s2) =>
      some (if F.lt (posf a) (posf s1) then a else s1,
            if F.lt (posf s2) (posf b) then b else s2)

/-- Invariant of the `data_range` fold after the first `m` positions: `none`
means no finite position was seen; `some (mn, mx)` points at finite positions
that are minimal/maximal among the finite positions seen so far. -/
def DRGood (positions : List F) (m : Nat) : Option (Nat × Nat) → Prop
  | none => ∀ j, j < m → (positions.getD j F.nan).isFinite = false
  | some mm =>
      mm.1 < m ∧ mm.2 < m ∧ (positions.getD mm.1 F.nan).isFinite = true ∧
      (positions.getD mm.2 F.nan).isFinite = true ∧
      ∀ j, j < m → (positions.getD j F.nan).isFinite = true →
        F.lt (positions.getD j F.nan) (positions.getD mm.1 F.nan) = false ∧
        F.lt (positions.getD mm.2 F.nan) (positions.getD j F.nan) = false

/-!
## Theorems
-/

theorem ppLoop_bounds (l : List F) (pred : F → Bool) :
    ∀ (fuel left right : Nat), left ≤ right →
      left ≤ ppLoop l pred fuel left right ∧ ppLoop l pred fuel left right ≤ right := by
  intro fuel
  induction fuel with
  | zero =>
    intro left right h
    exact ⟨le_refl _, h⟩
  | succ n ih =>
    intro left right h
    simp only [ppLoop]
    split
    next hlt =>
      split
      next hp =>
        have := ih (left + (right - left) / 2 + 1) right (by omega)
        omega
      next hp =>
        have := ih left (left + (right - left) / 2) (by omega)
        omega
    next hlt =>
      exact ⟨le_refl _, h⟩

theorem partitionPoint_le (l : List F) (pred : F → Bool) :
    partitionPoint l pred ≤ l.length :=
  (ppLoop_bounds l pred l.length 0 l.length (Nat.zero_le _)).2

/-- The binary-search loop computes the true/false boundary of a partitioned
predicate. -/
theorem ppLoop_char (l : List F) (pred : F → Bool)
    (Hpart : ∀ i j : Nat, i ≤ j → j < l.length →
      pred (l.getD j F.nan) = true → pred (l.getD i F.nan) = true) :
    ∀ (fuel left right : Nat), left ≤ right → right ≤ l.length → right - left ≤ fuel →
      (∀ i, i < left → pred (l.getD i F.nan) = true) →
      (∀ i, right ≤ i → i < l.length → pred (l.getD i F.nan) = false) →
      (∀ i, i < ppLoop l pred fuel left right → pred (l.getD i F.nan) = true) ∧
      (∀ i, ppLoop l pred fuel left right ≤ i → i < l.length →
        pred (l.getD i F.nan) = false) := by
  intro fuel
  induction fuel with
  | zero =>
    intro left right h1 h2 h3 hlo hhi
    have hz : ppLoop l pred 0 left right = left := rfl
    rw [hz]
    exact ⟨hlo, fun i hi1 hi2 => hhi i (by omega) hi2⟩
  | succ n ih =>
    intro left right h1 h2 h3 hlo hhi
    simp only [ppLoop]
    split
    next hlt =>
      split
      next hp =>
        refine ih (left + (right - left) / 2 + 1) right (by omega) h2 (by omega)
          (fun i hi => ?_) hhi
        exact Hpart i (left + (right - left) / 2) (by omega) (by omega) hp
      next hp =>
        refine ih left (left + (right - left) / 2) (by omega) (by omega) (by omega) hlo
          (fun i hi1 hi2 => ?_)
        cases hcase : pred (l.getD i F.nan)
        · rfl
        · exact absurd (Hpart (left + (right - left) / 2) i (by omega) hi2 hcase) hp
    next hlt =>
      refine ⟨fun i hi => hlo i hi, fun i hi1 hi2 => hhi i (by omega) hi2⟩

/-- The boundary characterization of `partition_point` for a partitioned
predicate. -/
theorem partitionPoint_char (l : List F) (pred : F → Bool)
    (Hpart : ∀ i j : Nat, i ≤ j → j < l.length →
      pred (l.getD j F.nan) = true → pred (l.getD i F.nan) = true) :
    (∀ i, i < partitionPoint l pred → pred (l.getD i F.nan) = true) ∧
    (∀ i, partitionPoint l pred ≤ i → i < l.length → pred (l.getD i F.nan) = false) := by
  refine ppLoop_char l pred Hpart l.length 0 l.length (Nat.zero_le _) (le_refl _)
    (by omega) (fun i hi => absurd hi (Nat.not_lt_zero i)) (fun i hi1 hi2 => absurd hi2 (by omega))

/-- Every run of `nearest_index` on a non-empty list lands in one of the four
source branches, always returning an in-bounds index. -/
theorem nearest_index_cases (positions : List F) (q : F) (hne : positions ≠ []) :
    ∃ i, nearest_index positions q = some i ∧ i < positions.length ∧
      ((partitionPoint positions (fun v => F.lt v q) = 0 ∧ i = 0) ∨
       (partitionPoint positions (fun v => F.lt v q) = positions.length ∧
         0 < positions.length ∧ i = positions.length - 1) ∨
       (0 < partitionPoint positions (fun v => F.lt v q) ∧
        partitionPoint positions (fun v => F.lt v q) < positions.length ∧
        ((F.lt (F.sub (positions.getD (partitionPoint positions (fun v => F.lt v q)) F.nan) q)
            (F.sub q (positions.getD (partitionPoint positions (fun v => F.lt v q) - 1) F.nan)) =
            true ∧
          i = partitionPoint positions (fun v => F.lt v q)) ∨
         (F.lt (F.sub (positions.getD (partitionPoint positions (fun v => F.lt v q)) F.nan) q)
            (F.sub q (positions.getD (partitionPoint positions (fun v => F.lt v q) - 1) F.nan)) =
            false ∧
          i = partitionPoint positions (fun v => F.lt v q) - 1)))) := by
  have hlen : 0 < positions.length := List.length_pos.mpr hne
  have hkle := partitionPoint_le positions (fun v => F.lt v q)
  have hempty : positions.isEmpty = false := by
    cases positions with
    | nil => exact absurd rfl hne
    | cons a t => rfl
  by_cases hk0 : partitionPoint positions (fun v => F.lt v q) = 0
  · refine ⟨0, ?_, hlen, Or.inl ⟨hk0, rfl⟩⟩
    simp [nearest_index, hempty, hk0]
  · by_cases hklen : partitionPoint positions (fun v => F.lt v q) = positions.length
    · refine ⟨positions.length - 1, ?_, by omega, Or.inr (Or.inl ⟨hklen, hlen, rfl⟩)⟩
      have hne0 : positions.length ≠ 0 := by omega
      simp [nearest_index, hempty, hklen, hne0]
    · cases hcond : F.lt
        (F.sub (positions.getD (partitionPoint positions (fun v => F.lt v q)) F.nan) q)
        (F.sub q (positions.getD (partitionPoint positions (fun v => F.lt v q) - 1) F.nan))
      · refine ⟨partitionPoint positions (fun v => F.lt v q) - 1, ?_, by omega,
          Or.inr (Or.inr ⟨by omega, by omega, Or.inr ⟨rfl, rfl⟩⟩)⟩
        simp only [nearest_index, hempty, Bool.false_eq_true, if_false]
        rw [if_neg hk0, if_neg hklen, hcond]
        simp
      · refine ⟨partitionPoint positions (fun v => F.lt v q), ?_, by omega,
          Or.inr (Or.inr ⟨by omega, by omega, Or.inl ⟨rfl, rfl⟩⟩)⟩
        simp only [nearest_index, hempty, Bool.false_eq_true, if_false]
        rw [if_neg hk0, if_neg hklen, hcond]
        simp

/-- Claim C9: the position-space projection is the identity for plain `f64`
values, and for temporal values it is the fractional Unix timestamp — the whole
seconds plus the subsecond nanoseconds divided by 1e9, which together equal the
total nanoseconds divided by 1e9. -/
theorem C9_position_projection :
    (∀ x : ℚ, positionF64 x = x) ∧
    (∀ nanos : ℤ,
      positionDateTime nanos =
        (dtTimestamp nanos : ℚ) + (dtSubsecNanos nanos : ℚ) / 1000000000 ∧
      positionDateTime nanos = (nanos : ℚ) / 1000000000) := by
  refine ⟨fun x => rfl, fun nanos => ⟨rfl, ?_⟩⟩
  rw [positionDateTime, dtTimestamp, dtSubsecNanos]
  have h : (1000000000 : ℤ) * (nanos / 1000000000) + nanos % 1000000000 = nanos :=
    Int.ediv_add_emod _ _
  have h2 : ((1000000000 : ℚ)) * ((nanos / 1000000000 : ℤ) : ℚ) +
      ((nanos % 1000000000 : ℤ) : ℚ) = (nanos : ℚ) := by
    exact_mod_cast congrArg (fun z : ℤ => (z : ℚ)) h
  field_simp
  linarith

/-- Claim C8: for a source record sequence of length `n`, `data_x`,
`positions_x`, every `data_y` line array and every `positions_y` line array
have length exactly `n`, and entry `i` of each is derived from record `i`. -/
theorem C8_parallel_arrays {T X Y : Type} (get_x : T → X) (get_y : T → Y)
    (posfX : X → F) (posfY : Y → F) (data : List T) :
    (data_x get_x data).length = data.length ∧
    (data_y_line get_y data).length = data.length ∧
    (positions_x posfX (data_x get_x data)).length = data.length ∧
    (positions_y_line posfY (data_y_line get_y data)).length = data.length ∧
    (∀ i : Nat, (data_x get_x data)[i]? = (data[i]?).map get_x) ∧
    (∀ i : Nat, (data_y_line get_y data)[i]? = (data[i]?).map get_y) ∧
    (∀ i : Nat, (positions_x posfX (data_x get_x data))[i]? =
      (data[i]?).map (fun t => posfX (get_x t))) ∧
    (∀ i : Nat, (positions_y_line posfY (data_y_line get_y data))[i]? =
      (data[i]?).map (fun t => posfY (get_y t))) := by
  refine ⟨?_, ?_, ?_, ?_, ?_, ?_, ?_, ?_⟩ <;>
    simp [data_x, data_y_line, positions_x, positions_y_line, List.getElem?_map,
      Function.comp_def]

/-- Claim C4: a degenerate data-position domain maps every X (resp. Y) to the
horizontal (resp. vertical) center of the inner pixel bounds with no division
by zero, and for non-degenerate domains the forward and inverse projections
round-trip exactly. -/
theorem C4_projection_degeneracy (p : Projection) :
    (p.range.width = 0 →
      ∀ x y : ℚ, (p.data_to_svg x y).1 = (p.bounds.left + p.bounds.right) / 2) ∧
    (p.range.height = 0 →
      ∀ x y : ℚ, (p.data_to_svg x y).2 = (p.bounds.top + p.bounds.bottom) / 2) ∧
    (p.range.width ≠ 0 → p.range.height ≠ 0 → p.bounds.width ≠ 0 →
      p.bounds.height ≠ 0 →
      (∀ sx sy : ℚ,
        p.data_to_svg (p.svg_to_data sx sy).1 (p.svg_to_data sx sy).2 = (sx, sy)) ∧
      (∀ x y : ℚ,
        p.svg_to_data (p.data_to_svg x y).1 (p.data_to_svg x y).2 = (x, y))) := by
  have key : ∀ c u A B : ℚ, A ≠ 0 → B ≠ 0 → c + u * A / B * B / A = c + u := by
    intro c u A B hA hB
    field_simp
  have key2 : ∀ c u A B : ℚ, A ≠ 0 → B ≠ 0 → c - u * A / B * B / A = c - u := by
    intro c u A B hA hB
    field_simp
  refine ⟨fun h x y => ?_, fun h x y => ?_,
    fun hrw hrh hbw hbh => ⟨fun sx sy => ?_, fun x y => ?_⟩⟩
  · simp only [Projection.data_to_svg, h, if_pos]
    rw [Bounds.width]
    ring
  · simp only [Projection.data_to_svg, h, if_pos]
    rw [Bounds.height]
    ring
  · simp only [Projection.data_to_svg, Projection.svg_to_data, if_neg hrw, if_neg hrh,
      Prod.mk.injEq]
    constructor
    · rw [add_sub_cancel_left, key _ _ _ _ hrw hbw]
      ring
    · rw [sub_sub_cancel, key _ _ _ _ hrh hbh]
      ring
  · simp only [Projection.data_to_svg, Projection.svg_to_data, if_neg hrw, if_neg hrh,
      Prod.mk.injEq]
    constructor
    · rw [add_sub_cancel_left, key _ _ _ _ hbw hrw]
      ring
    · rw [add_sub_cancel_left, key2 _ _ _ _ hbh hrh]
      ring

/-- Witness for C4 at a concrete projection: a zero-width domain maps X to the
horizontal center, and a non-degenerate projection round-trips. -/
theorem C4_projection_degeneracy_witness :
    ((Projection.mk ⟨0, 0, 100, 50⟩ ⟨2, 0, 2, 10⟩).data_to_svg 3 4).1 =
      ((0 : ℚ) + 100) / 2 ∧
    (Projection.mk ⟨0, 0, 100, 50⟩ ⟨0, 0, 10, 10⟩).data_to_svg
      ((Projection.mk ⟨0, 0, 100, 50⟩ ⟨0, 0, 10, 10⟩).svg_to_data 30 7).1
      ((Projection.mk ⟨0, 0, 100, 50⟩ ⟨0, 0, 10, 10⟩).svg_to_data 30 7).2 =
      ((30 : ℚ), (7 : ℚ)) :=
  ⟨(C4_projection_degeneracy _).1 (by norm_num [Bounds.width]) 3 4,
   ((C4_projection_degeneracy _).2.2 (by norm_num [Bounds.width])
     (by norm_num [Bounds.height]) (by norm_num [Bounds.width])
     (by norm_num [Bounds.height])).1 30 7⟩

/-- Claim C7: an axis marker with `Placement::Zero` on a horizontal edge is a
horizontal line at the SVG Y of `data_to_svg(_, 0.0)` — independent of the X
argument — spanning the bounds left to right, and `Placement::Edge` markers lie
exactly on the corresponding edge of the projection's bounds. -/
theorem C7_axis_marker_zero (proj : Projection) :
    (∀ x : ℚ, (horizontalZeroPos proj).2.1 = (proj.data_to_svg x 0).2 ∧
      (horizontalZeroPos proj).2.2.2 = (proj.data_to_svg x 0).2) ∧
    (horizontalZeroPos proj).1 = proj.bounds.left ∧
    (horizontalZeroPos proj).2.2.1 = proj.bounds.right ∧
    axisMarkerPos Placement.edge Edge.top proj =
      (proj.bounds.left, proj.bounds.top, proj.bounds.right, proj.bounds.top) ∧
    axisMarkerPos Placement.edge Edge.bottom proj =
      (proj.bounds.left, proj.bounds.bottom, proj.bounds.right, proj.bounds.bottom) ∧
    axisMarkerPos Placement.edge Edge.left proj =
      (proj.bounds.left, proj.bounds.bottom, proj.bounds.left, proj.bounds.top) ∧
    axisMarkerPos Placement.edge Edge.right proj =
      (proj.bounds.right, proj.bounds.bottom, proj.bounds.right, proj.bounds.top) :=
  ⟨fun _ => ⟨rfl, rfl⟩, rfl, rfl, rfl, rfl, rfl, rfl⟩

/-- Claim C5: the chart reverses the top and left edge lists and passes right
and bottom in declaration order, so of two stacked top decorations the earlier
declared one is rendered strictly further from the plot, nearer the chart
boundary. -/
theorem C5_declaration_order :
    (∀ (top : List ℚ) (right : List ℚ) (bottom : List ℚ) (left : List ℚ),
      chartPrepareEdges top right bottom left =
        (top.reverse, right, bottom, left.reverse)) ∧
    ∀ (outerTop tA tB : ℚ), 0 < tA → 0 < tB →
      ∃ rA rB, chartTopStrips outerTop [tA, tB] = [rA, rB] ∧
        rA = (outerTop, outerTop + tA) ∧
        rB = (outerTop + tA, outerTop + tA + tB) ∧
        rA.2 ≤ rB.1 ∧
        rA.1 < rB.1 ∧
        plotTopAfter outerTop [tA, tB] - rB.2 <
          plotTopAfter outerTop [tA, tB] - rA.2 := by
  refine ⟨fun _ _ _ _ => rfl, fun o tA tB hA hB => ?_⟩
  refine ⟨(o, o + tA), (o + tA, o + tA + tB), ?_, rfl, rfl, le_refl _, ?_, ?_⟩
  · simp [chartTopStrips, composeTopEdge, chartPrepareEdges, stackFromBoundary]
  · show o < o + tA
    linarith
  · show o + [tA, tB].sum - (o + tA + tB) < o + [tA, tB].sum - (o + tA)
    simp only [List.sum_cons, List.sum_nil]
    linarith

/-- Witness for C5 at concrete thicknesses 1 and 2. -/
theorem C5_declaration_order_witness :
    ∃ rA rB, chartTopStrips 0 [(1 : ℚ), 2] = [rA, rB] ∧
      rA = ((0 : ℚ), (0 : ℚ) + 1) ∧
      rB = ((0 : ℚ) + 1, (0 : ℚ) + 1 + 2) ∧
      rA.2 ≤ rB.1 ∧
      rA.1 < rB.1 ∧
      plotTopAfter 0 [(1 : ℚ), 2] - rB.2 < plotTopAfter 0 [(1 : ℚ), 2] - rA.2 :=
  C5_declaration_order.2 0 1 2 (by norm_num) (by norm_num)


theorem getD_mem_of_lt {α : Type} (l : List α) (d : α) :
    ∀ i, i < l.length → l.getD i d ∈ l := by
  induction l with
  | nil => intro i h; simp at h
  | cons a t ih =>
    intro i h
    cases i with
    | zero => simp
    | succ j =>
      simp only [List.getD_cons_succ, List.mem_cons]
      exact Or.inr (ih j (by simpa using Nat.lt_of_succ_lt_succ h))

theorem getD_map_fin (qs : List ℚ) :
    ∀ i, i < qs.length → (qs.map F.fin).getD i F.nan = F.fin (qs.getD i 0) := by
  induction qs with
  | nil => intro i h; simp at h
  | cons a t ih =>
    intro i h
    cases i with
    | zero => simp
    | succ j =>
      simp only [List.map_cons, List.getD_cons_succ]
      exact ih j (by simpa using Nat.lt_of_succ_lt_succ h)

/-- Claim C10: `nearest_index` is `None` exactly on empty data and otherwise an
in-bounds index; `nearest_position_x` yields the NaN sentinel on empty data and
otherwise the position at the nearest index, so the NaN sentinel signals empty
data whenever no stored position is itself NaN. -/
theorem C10_nearest_in_bounds (positions : List F) (q : F) :
    (nearest_index positions q = none ↔ positions = []) ∧
    (positions = [] → nearest_position_x positions q = F.nan) ∧
    (positions ≠ [] → ∃ i, i < positions.length ∧ nearest_index positions q = some i ∧
      nearest_position_x positions q = positions.getD i F.nan) ∧
    ((∀ p ∈ positions, p ≠ F.nan) →
      (nearest_position_x positions q = F.nan ↔ positions = [])) := by
  by_cases hne : positions = []
  · subst hne
    refine ⟨by simp [nearest_index], fun _ => rfl, fun h => absurd rfl h, fun _ => ⟨fun _ => rfl, fun _ => rfl⟩⟩
  · obtain ⟨i, hni, hilt, _⟩ := nearest_index_cases positions q hne
    have hpos : nearest_position_x positions q = positions.getD i F.nan := by
      rw [nearest_position_x, hni]
    refine ⟨⟨fun h => absurd h (by rw [hni]; exact Option.some_ne_none i), fun h => absurd h hne⟩,
      fun h => absurd h hne, fun _ => ⟨i, hilt, hni, hpos⟩, fun hnn => ?_⟩
    refine ⟨fun h => ?_, fun h => absurd h hne⟩
    exact absurd (hpos ▸ h) (hnn _ (getD_mem_of_lt positions F.nan i hilt))

/-- Witness for C10 at a concrete positions list and query. -/
theorem C10_nearest_in_bounds_witness :
    ([F.fin 10, F.fin 20] ≠ [] →
      ∃ i, i < [F.fin 10, F.fin 20].length ∧
        nearest_index [F.fin 10, F.fin 20] (F.fin 4) = some i ∧
        nearest_position_x [F.fin 10, F.fin 20] (F.fin 4) =
          [F.fin 10, F.fin 20].getD i F.nan) ∧
    (nearest_index ([] : List F) (F.fin 4) = none ↔ ([] : List F) = []) :=
  ⟨(C10_nearest_in_bounds [F.fin 10, F.fin 20] (F.fin 4)).2.2.1,
   (C10_nearest_in_bounds ([] : List F) (F.fin 4)).1⟩

theorem getD_eq_get {α : Type} (l : List α) (d : α) :
    ∀ i (h : i < l.length), l.getD i d = l.get ⟨i, h⟩ := by
  induction l with
  | nil => intro i h; simp at h
  | cons a t ih =>
    intro i h
    cases i with
    | zero => rfl
    | succ j => exact ih j (by simpa using Nat.lt_of_succ_lt_succ h)

theorem sorted_getD_lt (qs : List ℚ) (hs : qs.Pairwise (· < ·)) :
    ∀ i j, i < j → j < qs.length → qs.getD i 0 < qs.getD j 0 := by
  intro i j hij hj
  have hi : i < qs.length := lt_trans hij hj
  have h := List.pairwise_iff_get.mp hs ⟨i, hi⟩ ⟨j, hj⟩ (by simpa using hij)
  rw [getD_eq_get qs 0 i hi, getD_eq_get qs 0 j hj]
  exact h

/-- Claim C1: on `[10,20,30]` query 5 clamps to index 0, query 35 clamps to
index 2 and the exact midpoint 15 resolves to index 0; in general on a
non-empty strictly ascending positions array, `nearest_index` returns `Some`
of an index whose position is at minimal absolute distance from the query,
preferring the earlier index on an exact tie. -/
theorem C1_nearest_index_correct (qs : List ℚ) (q : ℚ) (hne : qs ≠ [])
    (hs : qs.Pairwise (· < ·)) :
    (nearest_index [F.fin 10, F.fin 20, F.fin 30] (F.fin 5) = some 0 ∧
     nearest_index [F.fin 10, F.fin 20, F.fin 30] (F.fin 35) = some 2 ∧
     nearest_index [F.fin 10, F.fin 20, F.fin 30] (F.fin 15) = some 0) ∧
    ∃ i, i < qs.length ∧ nearest_index (qs.map F.fin) (F.fin q) = some i ∧
      (∀ j, j < qs.length → |qs.getD i 0 - q| ≤ |qs.getD j 0 - q|) ∧
      (∀ j, j < qs.length → |qs.getD j 0 - q| = |qs.getD i 0 - q| → i ≤ j) := by
  refine ⟨⟨by decide, by decide, by norm_num [nearest_index, partitionPoint, ppLoop, F.lt, F.sub]⟩, ?_⟩
  set positions := qs.map F.fin with hposdef
  have hlen : positions.length = qs.length := List.length_map _ _
  have hqne : positions ≠ [] := by
    intro h
    exact hne (List.map_eq_nil_iff.mp h)
  have hpred : ∀ j, j < qs.length →
      (F.lt (positions.getD j F.nan) (F.fin q) = true ↔ qs.getD j 0 < q) := by
    intro j hj
    rw [hposdef, getD_map_fin qs j hj]
    simp [F.lt]
  have Hpart : ∀ a b : Nat, a ≤ b → b < positions.length →
      F.lt (positions.getD b F.nan) (F.fin q) = true →
      F.lt (positions.getD a F.nan) (F.fin q) = true := by
    intro a b hab hb hpb
    have hb' : b < qs.length := by rwa [hlen] at hb
    have ha' : a < qs.length := by omega
    have hbq : qs.getD b 0 < q := (hpred b hb').mp hpb
    refine (hpred a ha').mpr ?_
    rcases eq_or_lt_of_le hab with rfl | hlt
    · exact hbq
    · exact lt_trans (sorted_getD_lt qs hs a b hlt hb') hbq
  obtain ⟨Htrue, Hfalse⟩ := partitionPoint_char positions (fun v => F.lt v (F.fin q)) Hpart
  have hkle := partitionPoint_le positions (fun v => F.lt v (F.fin q))
  set k := partitionPoint positions (fun v => F.lt v (F.fin q)) with hkdef
  have Htq : ∀ j, j < k → qs.getD j 0 < q := by
    intro j hj
    have hj' : j < qs.length := by omega
    exact (hpred j hj').mp (Htrue j hj)
  have Hfq : ∀ j, k ≤ j → j < qs.length → q ≤ qs.getD j 0 := by
    intro j h1 h2
    have hf := Hfalse j h1 (by rwa [hlen])
    by_contra hc
    push_neg at hc
    have := (hpred j h2).mpr hc
    rw [hf] at this
    exact Bool.false_ne_true this
  obtain ⟨i, hni, hilt, hcases⟩ := nearest_index_cases positions (F.fin q) hqne
  rcases hcases with ⟨hk0, rfl⟩ | ⟨hklen, hl, rfl⟩ | ⟨hkpos, hklt, hsub⟩
  · -- query at or before the first point: clamp to index 0
    refine ⟨0, by omega, hni, fun j hj => ?_, fun j hj _ => Nat.zero_le j⟩
    have h0 : q ≤ qs.getD 0 0 := Hfq 0 (by omega) (by omega)
    have hj0 : qs.getD 0 0 ≤ qs.getD j 0 := by
      rcases Nat.eq_zero_or_pos j with rfl | hjpos
      · exact le_refl _
      · exact le_of_lt (sorted_getD_lt qs hs 0 j hjpos hj)
    rw [abs_of_nonneg (by linarith), abs_of_nonneg (by linarith)]
    linarith
  · -- query after the last point: clamp to the last index
    have hlast : positions.length - 1 = qs.length - 1 := by rw [hlen]
    rw [hlast] at hni
    refine ⟨qs.length - 1, by omega, hni, fun j hj => ?_, fun j hj heq => ?_⟩
    · have hjq : qs.getD j 0 < q := Htq j (by omega)
      have hlq : qs.getD (qs.length - 1) 0 < q := Htq _ (by omega)
      have hjl : qs.getD j 0 ≤ qs.getD (qs.length - 1) 0 := by
        rcases eq_or_lt_of_le (Nat.le_pred_of_lt hj) with rfl | hlt3
        · exact le_refl _
        · exact le_of_lt (sorted_getD_lt qs hs j (qs.length - 1) hlt3 (by omega))
      rw [abs_of_nonpos (by linarith), abs_of_nonpos (by linarith)]
      linarith
    · rcases Nat.lt_or_ge j (qs.length - 1) with hlt3 | hge3
      · exfalso
        have hstrict := sorted_getD_lt qs hs j (qs.length - 1) hlt3 (by omega)
        have hjq : qs.getD j 0 < q := Htq j (by omega)
        have hlq : qs.getD (qs.length - 1) 0 < q := Htq _ (by omega)
        rw [abs_of_nonpos (by linarith), abs_of_nonpos (by linarith)] at heq
        linarith
      · exact hge3
  · -- interior: compare the two neighbors of the boundary
    have hklt' : k < qs.length := by rwa [hlen] at hklt
    have hbk : positions.getD k F.nan = F.fin (qs.getD k 0) := by
      rw [hposdef]
      exact getD_map_fin qs k hklt'
    have hak : positions.getD (k - 1) F.nan = F.fin (qs.getD (k - 1) 0) := by
      rw [hposdef]
      exact getD_map_fin qs (k - 1) (by omega)
    have ha : qs.getD (k - 1) 0 < q := Htq (k - 1) (by omega)
    have hb : q ≤ qs.getD k 0 := Hfq k (le_refl k) hklt'
    have haux1 : ∀ j, j < k → j < qs.length → qs.getD j 0 ≤ qs.getD (k - 1) 0 := by
      intro j hjk hj
      rcases eq_or_lt_of_le (Nat.le_pred_of_lt hjk) with rfl | hlt3
      · exact le_refl _
      · exact le_of_lt (sorted_getD_lt qs hs j (k - 1) hlt3 (by omega))
    have haux2 : ∀ j, k ≤ j → j < qs.length → qs.getD k 0 ≤ qs.getD j 0 := by
      intro j hjk hj
      rcases eq_or_lt_of_le hjk with rfl | hlt3
      · exact le_refl _
      · exact le_of_lt (sorted_getD_lt qs hs k j hlt3 hj)
    rcases hsub with ⟨hc, rfl⟩ | ⟨hc, rfl⟩
    · -- the later neighbor is strictly closer
      rw [hbk, hak] at hc
      simp only [F.sub, F.lt, decide_eq_true_eq] at hc
      refine ⟨k, by omega, hni, fun j hj => ?_, fun j hj heq => ?_⟩
      · rcases Nat.lt_or_ge j k with hjk | hjk
        · have hja := haux1 j hjk hj
          rw [abs_of_nonneg (by linarith), abs_of_nonpos (by linarith)]
          linarith
        · have hjb := haux2 j hjk hj
          rw [abs_of_nonneg (by linarith), abs_of_nonneg (by linarith)]
          linarith
      · rcases Nat.lt_or_ge j k with hjk | hjk
        · exfalso
          have hja := haux1 j hjk hj
          rw [abs_of_nonpos (by linarith), abs_of_nonneg (by linarith)] at heq
          linarith
        · exact hjk
    · -- tie or earlier neighbor closer: pick the earlier index
      rw [hbk, hak] at hc
      simp only [F.sub, F.lt, decide_eq_true_eq] at hc
      have hge2 : q - qs.getD (k - 1) 0 ≤ qs.getD k 0 - q := by
        have := of_decide_eq_false (by exact_mod_cast hc)
        linarith [not_lt.mp this]
      refine ⟨k - 1, by omega, hni, fun j hj => ?_, fun j hj heq => ?_⟩
      · rcases Nat.lt_or_ge j k with hjk | hjk
        · have hja := haux1 j hjk hj
          rw [abs_of_nonpos (by linarith), abs_of_nonpos (by linarith)]
          linarith
        · have hjb := haux2 j hjk hj
          rw [abs_of_nonpos (by linarith), abs_of_nonneg (by linarith)]
          linarith
      · rcases Nat.lt_or_ge j (k - 1) with hjk | hjk
        · exfalso
          have hstrict := sorted_getD_lt qs hs j (k - 1) hjk (by omega)
          rw [abs_of_nonpos (by linarith), abs_of_nonpos (by linarith)] at heq
          linarith
        · exact hjk

/-- Witness for C1 at the positions `[10,20,30]` and midpoint query 15. -/
theorem C1_nearest_index_correct_witness :
    (nearest_index [F.fin 10, F.fin 20, F.fin 30] (F.fin 5) = some 0 ∧
     nearest_index [F.fin 10, F.fin 20, F.fin 30] (F.fin 35) = some 2 ∧
     nearest_index [F.fin 10, F.fin 20, F.fin 30] (F.fin 15) = some 0) ∧
    ∃ i, i < [(10 : ℚ), 20, 30].length ∧
      nearest_index ([(10 : ℚ), 20, 30].map F.fin) (F.fin 15) = some i ∧
      (∀ j, j < [(10 : ℚ), 20, 30].length →
        |[(10 : ℚ), 20, 30].getD i 0 - 15| ≤ |[(10 : ℚ), 20, 30].getD j 0 - 15|) ∧
      (∀ j, j < [(10 : ℚ), 20, 30].length →
        |[(10 : ℚ), 20, 30].getD j 0 - 15| = |[(10 : ℚ), 20, 30].getD i 0 - 15| → i ≤ j) :=
  C1_nearest_index_correct [10, 20, 30] 15 (by decide) (by decide)

theorem F_lt_irrefl (v : F) : F.lt v v = false := by
  cases v <;> simp [F.lt]

theorem isFinite_iff (v : F) : v.isFinite = true ↔ ∃ a, v = F.fin a := by
  cases v <;> simp [F.isFinite]

theorem drStep_min_bound (positions : List F) (i mn : Nat) (a b : ℚ)
    (hpos : positions.getD i F.nan = F.fin a)
    (hbp : positions.getD mn F.nan = F.fin b)
    (hmin : ∀ j, j < i → (positions.getD j F.nan).isFinite = true →
      F.lt (positions.getD j F.nan) (positions.getD mn F.nan) = false) :
    ∀ j, j < i + 1 → (positions.getD j F.nan).isFinite = true →
      F.lt (positions.getD j F.nan)
        (positions.getD (if F.lt (F.fin a) (positions.getD mn F.nan) = true then i else mn)
          F.nan) = false := by
  intro j hj hjf
  split
  next hless =>
    rw [hpos]
    rcases Nat.lt_succ_iff_lt_or_eq.mp hj with h | rfl
    · obtain ⟨d, hdp⟩ := (isFinite_iff _).mp hjf
      have hold := hmin j h hjf
      rw [hbp] at hless
      rw [hdp, hbp] at hold
      rw [hdp]
      simp only [F.lt, decide_eq_true_eq, decide_eq_false_iff_not] at hless hold ⊢
      intro hda
      exact hold (lt_trans hda hless)
    · rw [hpos]
      exact F_lt_irrefl _
  next hless =>
    rcases Nat.lt_succ_iff_lt_or_eq.mp hj with h | rfl
    · exact hmin j h hjf
    · rw [hpos]
      simp only [Bool.not_eq_true] at hless
      exact hless

theorem drStep_max_bound (positions : List F) (i mx : Nat) (a c : ℚ)
    (hpos : positions.getD i F.nan = F.fin a)
    (hcp : positions.getD mx F.nan = F.fin c)
    (hmax : ∀ j, j < i → (positions.getD j F.nan).isFinite = true →
      F.lt (positions.getD mx F.nan) (positions.getD j F.nan) = false) :
    ∀ j, j < i + 1 → (positions.getD j F.nan).isFinite = true →
      F.lt (positions.getD (if F.lt (positions.getD mx F.nan) (F.fin a) = true then i else mx)
          F.nan)
        (positions.getD j F.nan) = false := by
  intro j hj hjf
  split
  next hmore =>
    rw [hpos]
    rcases Nat.lt_succ_iff_lt_or_eq.mp hj with h | rfl
    · obtain ⟨d, hdp⟩ := (isFinite_iff _).mp hjf
      have hold := hmax j h hjf
      rw [hcp] at hmore
      rw [hdp, hcp] at hold
      rw [hdp]
      simp only [F.lt, decide_eq_true_eq, decide_eq_false_iff_not] at hmore hold ⊢
      intro had
      exact hold (lt_trans hmore had)
    · rw [hpos]
      exact F_lt_irrefl _
  next hmore =>
    rcases Nat.lt_succ_iff_lt_or_eq.mp hj with h | rfl
    · exact hmax j h hjf
    · rw [hpos]
      simp only [Bool.not_eq_true] at hmore
      exact hmore

theorem drStep_good (positions : List F) (i : Nat) (pos : F) (acc : Option (Nat × Nat))
    (hpos : positions.getD i F.nan = pos) (hacc : DRGood positions i acc) :
    DRGood positions (i + 1) (drStep positions acc i pos) := by
  by_cases hfin : pos.isFinite = true
  case neg =>
    have hf : pos.isFinite = false := by simp only [Bool.not_eq_true] at hfin; exact hfin
    unfold drStep
    rw [if_neg (by simp [hf])]
    cases acc with
    | none =>
      intro j hj
      rcases Nat.lt_succ_iff_lt_or_eq.mp hj with h | rfl
      · exact hacc j h
      · rwa [hpos]
    | some mm =>
      obtain ⟨h1, h2, h3, h4, h5⟩ := hacc
      refine ⟨by omega, by omega, h3, h4, fun j hj hjf => ?_⟩
      rcases Nat.lt_succ_iff_lt_or_eq.mp hj with h | rfl
      · exact h5 j h hjf
      · rw [hpos] at hjf
        rw [hjf] at hf
        simp at hf
  case pos =>
    obtain ⟨a, rfl⟩ := (isFinite_iff pos).mp hfin
    unfold drStep
    rw [if_pos hfin]
    cases acc with
    | none =>
      refine ⟨Nat.lt_succ_self i, Nat.lt_succ_self i, by rw [hpos]; rfl, by rw [hpos]; rfl,
        fun j hj hjf => ?_⟩
      rcases Nat.lt_succ_iff_lt_or_eq.mp hj with h | rfl
      · rw [hacc j h] at hjf
        exact absurd hjf (by simp)
      · rw [hpos]
        exact ⟨F_lt_irrefl _, F_lt_irrefl _⟩
    | some mm =>
      obtain ⟨mn, mx⟩ := mm
      obtain ⟨h1, h2, h3, h4, h5⟩ := hacc
      dsimp only at h1 h2 h3 h4 h5
      obtain ⟨b, hbp⟩ := (isFinite_iff _).mp h3
      obtain ⟨c, hcp⟩ := (isFinite_iff _).mp h4
      refine ⟨?_, ?_, ?_, ?_, fun j hj hjf => ⟨?_, ?_⟩⟩
      · dsimp only
        split <;> omega
      · dsimp only
        split <;> omega
      · dsimp only
        split
        · rw [hpos]; rfl
        · exact h3
      · dsimp only
        split
        · rw [hpos]; rfl
        · exact h4
      · dsimp only
        exact drStep_min_bound positions i mn a b hpos hbp (fun j h hf => (h5 j h hf).1) j hj hjf
      · dsimp only
        exact drStep_max_bound positions i mx a c hpos hcp (fun j h hf => (h5 j h hf).2) j hj hjf

theorem drGo_good (positions : List F) :
    ∀ (tail : List F) (i : Nat) (acc : Option (Nat × Nat)),
      positions.drop i = tail → DRGood positions i acc →
      DRGood positions (i + tail.length) (drGo positions i tail acc) := by
  intro tail
  induction tail with
  | nil =>
    intro i acc hdrop hacc
    simpa using hacc
  | cons pos rest ih =>
    intro i acc hdrop hacc
    have hpos : positions.getD i F.nan = pos := by
      have h : positions[i]? = some pos := by
        rw [← List.head?_drop, hdrop]
        rfl
      rw [List.getD_eq_getElem?_getD, h]
      rfl
    have hdrop2 : positions.drop (i + 1) = rest := by
      have h := congrArg List.tail hdrop
      rw [List.tail_drop] at h
      simpa using h
    have hstep := drStep_good positions i pos acc hpos hacc
    have hrec := ih (i + 1) (drStep positions acc i pos) hdrop2 hstep
    have hlen : i + 1 + rest.length = i + (pos :: rest).length := by
      simp
      omega
    rw [← hlen]
    exact hrec

theorem dataRangeIndexes_good (positions : List F) :
    DRGood positions positions.length (dataRangeIndexes positions) := by
  have h := drGo_good positions positions 0 none rfl
    (fun j hj => absurd hj (Nat.not_lt_zero j))
  simpa [dataRangeIndexes] using h

/-- Claim C6: `data_range` returns the data values at indexes of the minimal
and maximal finite positions, `None` exactly when no finite position exists,
while the position arrays keep one entry per record so their lengths are
unaffected by non-finite values. -/
theorem C6_nonfinite_excluded {V : Type} [Inhabited V] (positions : List F) (data : List V) :
    (data_range positions data = none ↔ ∀ p ∈ positions, p.isFinite = false) ∧
    (∀ vmn vmx, data_range positions data = some (vmn, vmx) →
      ∃ mn mx, mn < positions.length ∧ mx < positions.length ∧
        vmn = data.getD mn default ∧ vmx = data.getD mx default ∧
        (positions.getD mn F.nan).isFinite = true ∧
        (positions.getD mx F.nan).isFinite = true ∧
        ∀ j, j < positions.length → (positions.getD j F.nan).isFinite = true →
          F.lt (positions.getD j F.nan) (positions.getD mn F.nan) = false ∧
          F.lt (positions.getD mx F.nan) (positions.getD j F.nan) = false) ∧
    (∀ {X : Type} (posf : X → F) (xs : List X),
      (positions_x posf xs).length = xs.length) ∧
    (∀ {Y : Type} (posf : Y → F) (ys : List Y),
      (positions_y_line posf ys).length = ys.length) := by
  have hg := dataRangeIndexes_good positions
  refine ⟨⟨?_, ?_⟩, ?_, fun posf xs => List.length_map _ _, fun posf ys => List.length_map _ _⟩
  · intro h p hp
    cases hidx : dataRangeIndexes positions with
    | some mm => simp [data_range, hidx] at h
    | none =>
      rw [hidx] at hg
      obtain ⟨⟨j, hj⟩, hget⟩ := List.mem_iff_get.mp hp
      have := hg j hj
      rwa [getD_eq_get positions F.nan j hj, hget] at this
  · intro h
    cases hidx : dataRangeIndexes positions with
    | none => simp [data_range, hidx]
    | some mm =>
      rw [hidx] at hg
      obtain ⟨h1, h2, h3, h4, h5⟩ := hg
      have hmem := getD_mem_of_lt positions F.nan mm.1 h1
      rw [h _ hmem] at h3
      exact absurd h3 (by simp)
  · intro vmn vmx h
    cases hidx : dataRangeIndexes positions with
    | none => simp [data_range, hidx] at h
    | some mm =>
      rw [hidx] at hg
      obtain ⟨hb1, hb2, hb3, hb4, hb5⟩ := hg
      rw [data_range, hidx] at h
      have h' := Option.some.inj h
      have hA := congrArg Prod.fst h'
      have hB := congrArg Prod.snd h'
      dsimp only at hA hB
      exact ⟨mm.1, mm.2, hb1, hb2, hA.symm, hB.symm, hb3, hb4, hb5⟩

/-- Witness for C6: positions `[1, NaN, 3]` with data `[10,20,30]` give range
`(10, 30)`, skipping the NaN but keeping it in the array. -/
theorem C6_nonfinite_excluded_witness :
    ∃ mn mx, mn < [F.fin 1, F.nan, F.fin 3].length ∧ mx < [F.fin 1, F.nan, F.fin 3].length ∧
      (10 : ℚ) = [(10 : ℚ), 20, 30].getD mn default ∧
      (30 : ℚ) = [(10 : ℚ), 20, 30].getD mx default ∧
      ([F.fin 1, F.nan, F.fin 3].getD mn F.nan).isFinite = true ∧
      ([F.fin 1, F.nan, F.fin 3].getD mx F.nan).isFinite = true ∧
      ∀ j, j < [F.fin 1, F.nan, F.fin 3].length →
        ([F.fin 1, F.nan, F.fin 3].getD j F.nan).isFinite = true →
        F.lt ([F.fin 1, F.nan, F.fin 3].getD j F.nan)
          ([F.fin 1, F.nan, F.fin 3].getD mn F.nan) = false ∧
        F.lt ([F.fin 1, F.nan, F.fin 3].getD mx F.nan)
          ([F.fin 1, F.nan, F.fin 3].getD j F.nan) = false :=
  (C6_nonfinite_excluded [F.fin 1, F.nan, F.fin 3] [(10 : ℚ), 20, 30]).2.1 10 30 (by decide)

/-- On plain rational data (identity positions) `data_range` yields the minimum
and maximum data values. -/
theorem data_range_map_fin (data : List ℚ) (hne : data ≠ []) :
    ∃ a b, data_range (data.map F.fin) data = some (a, b) ∧
      a ∈ data ∧ (∀ x ∈ data, a ≤ x) ∧ b ∈ data ∧ (∀ x ∈ data, x ≤ b) := by
  have hg := dataRangeIndexes_good (data.map F.fin)
  have hlen : (data.map F.fin).length = data.length := List.length_map _ _
  have hdef : (default : ℚ) = 0 := rfl
  cases hidx : dataRangeIndexes (data.map F.fin) with
  | none =>
    exfalso
    rw [hidx] at hg
    have hlen0 : 0 < data.length := List.length_pos.mpr hne
    have h0 := hg 0 (by omega)
    rw [getD_map_fin data 0 hlen0] at h0
    simp [F.isFinite] at h0
  | some mm =>
    rw [hidx] at hg
    obtain ⟨h1, h2, h3, h4, h5⟩ := hg
    rw [hlen] at h1 h2
    refine ⟨data.getD mm.1 0, data.getD mm.2 0, ?_, ?_, ?_, ?_, ?_⟩
    · rw [data_range, hidx, hdef]
      rfl
    · exact getD_mem_of_lt data 0 mm.1 h1
    · intro x hx
      obtain ⟨⟨j, hj⟩, hget⟩ := List.mem_iff_get.mp hx
      have hfin : ((data.map F.fin).getD j F.nan).isFinite = true := by
        rw [getD_map_fin data j hj]
        rfl
      have hmin := (h5 j (by omega) hfin).1
      rw [getD_map_fin data j hj, getD_map_fin data mm.1 h1] at hmin
      simp only [F.lt, decide_eq_false_iff_not] at hmin
      have hle := not_lt.mp hmin
      rwa [getD_eq_get data 0 j hj, hget] at hle
    · exact getD_mem_of_lt data 0 mm.2 h2
    · intro x hx
      obtain ⟨⟨j, hj⟩, hget⟩ := List.mem_iff_get.mp hx
      have hfin : ((data.map F.fin).getD j F.nan).isFinite = true := by
        rw [getD_map_fin data j hj]
        rfl
      have hmax := (h5 j (by omega) hfin).2
      rw [getD_map_fin data j hj, getD_map_fin data mm.2 h2] at hmax
      simp only [F.lt, decide_eq_false_iff_not] at hmax
      have hle := not_lt.mp hmax
      rwa [getD_eq_get data 0 j hj, hget] at hle

/-- Claim C2: the combined X range is the componentwise min/max of the union of
the data-derived range and the expanded user override, not a replacement: for
`[1,2,3]` the range is `(1,3)`, with override min=0 it is `(0,3)`, with
override min=5 it is `(1,5)`; with no data the override (expanded) is the
range, with no override the data range is the range, and with neither it is
`None`. -/
theorem C2_range_x_union (data : List ℚ) (min_x max_x : Option ℚ) :
    (range_x F.fin ([(1 : ℚ), 2, 3].map F.fin) [(1 : ℚ), 2, 3] none none = some (1, 3) ∧
     range_x F.fin ([(1 : ℚ), 2, 3].map F.fin) [(1 : ℚ), 2, 3] (some 0) none = some (0, 3) ∧
     range_x F.fin ([(1 : ℚ), 2, 3].map F.fin) [(1 : ℚ), 2, 3] (some 5) none = some (1, 5)) ∧
    (range_x F.fin ([] : List F) ([] : List ℚ) min_x max_x = specifiedRange min_x max_x) ∧
    (data ≠ [] →
      ∃ a b, a ∈ data ∧ (∀ x ∈ data, a ≤ x) ∧ b ∈ data ∧ (∀ x ∈ data, x ≤ b) ∧
        range_x F.fin (data.map F.fin) data none none = some (a, b)) ∧
    (data ≠ [] → ∀ s1 s2, specifiedRange min_x max_x = some (s1, s2) →
      ∃ a b, a ∈ data ∧ (∀ x ∈ data, a ≤ x) ∧ b ∈ data ∧ (∀ x ∈ data, x ≤ b) ∧
        range_x F.fin (data.map F.fin) data min_x max_x = some (min a s1, max b s2)) := by
  refine ⟨⟨by decide, by decide, by decide⟩, ?_, fun hne => ?_, fun hne s1 s2 hs => ?_⟩
  · cases min_x <;> cases max_x <;> rfl
  · obtain ⟨a, b, hdr, hma, hla, hmb, hlb⟩ := data_range_map_fin data hne
    refine ⟨a, b, hma, hla, hmb, hlb, ?_⟩
    unfold range_x
    rw [hdr]
    rfl
  · obtain ⟨a, b, hdr, hma, hla, hmb, hlb⟩ := data_range_map_fin data hne
    refine ⟨a, b, hma, hla, hmb, hlb, ?_⟩
    unfold range_x
    rw [hdr, hs]
    show some (if F.lt (F.fin a) (F.fin s1) = true then a else s1,
      if F.lt (F.fin s2) (F.fin b) = true then b else s2) = some (min a s1, max b s2)
    have hA : (if F.lt (F.fin a) (F.fin s1) = true then a else s1) = min a s1 := by
      by_cases hc : a < s1
      · rw [if_pos (by simpa [F.lt] using hc), min_eq_left hc.le]
      · rw [if_neg (by simpa [F.lt] using hc), min_eq_right (not_lt.mp hc)]
    have hB : (if F.lt (F.fin s2) (F.fin b) = true then b else s2) = max b s2 := by
      by_cases hc : s2 < b
      · rw [if_pos (by simpa [F.lt] using hc), max_eq_left hc.le]
      · rw [if_neg (by simpa [F.lt] using hc), max_eq_right (not_lt.mp hc)]
    rw [hA, hB]

/-- Witness for C2: data `[1,2,3]` with override min=5 — the specified min also
feeds the max component, giving `(1, 5)`. -/
theorem C2_range_x_union_witness :
    (range_x F.fin ([] : List F) ([] : List ℚ) (some 7) none = specifiedRange (some 7) none) ∧
    ∃ a b, a ∈ [(1 : ℚ), 2, 3] ∧ (∀ x ∈ [(1 : ℚ), 2, 3], a ≤ x) ∧ b ∈ [(1 : ℚ), 2, 3] ∧
      (∀ x ∈ [(1 : ℚ), 2, 3], x ≤ b) ∧
      range_x F.fin ([(1 : ℚ), 2, 3].map F.fin) [(1 : ℚ), 2, 3] (some 5) none =
        some (min a 5, max b 5) :=
  ⟨(C2_range_x_union [(1 : ℚ), 2, 3] (some 7) none).2.1,
   (C2_range_x_union [(1 : ℚ), 2, 3] (some 5) none).2.2.2 (by decide) 5 5 rfl⟩

theorem minByPos_go (t : List ℚ) : ∀ m0 : ℚ,
    ∃ m, t.foldl (minStep F.fin) (some m0) = some m ∧
      (m = m0 ∨ m ∈ t) ∧ m ≤ m0 ∧ ∀ x ∈ t, m ≤ x := by
  induction t with
  | nil =>
    intro m0
    exact ⟨m0, rfl, Or.inl rfl, le_refl _, by simp⟩
  | cons a t ih =>
    intro m0
    rw [List.foldl_cons]
    by_cases hc : a < m0
    · have hstep : minStep F.fin (some m0) a = some a := by
        simp [minStep, F.totalLt, hc]
      rw [hstep]
      obtain ⟨m, hm, hmem, hle, hall⟩ := ih a
      refine ⟨m, hm, ?_, le_trans hle hc.le, fun x hx => ?_⟩
      · rcases hmem with rfl | h
        · exact Or.inr (List.mem_cons_self _ _)
        · exact Or.inr (List.mem_cons_of_mem _ h)
      · rcases List.mem_cons.mp hx with rfl | h
        · exact hle
        · exact hall x h
    · have hstep : minStep F.fin (some m0) a = some m0 := by
        simp [minStep, F.totalLt, hc]
      rw [hstep]
      obtain ⟨m, hm, hmem, hle, hall⟩ := ih m0
      refine ⟨m, hm, ?_, hle, fun x hx => ?_⟩
      · rcases hmem with rfl | h
        · exact Or.inl rfl
        · exact Or.inr (List.mem_cons_of_mem _ h)
      · rcases List.mem_cons.mp hx with rfl | h
        · exact le_trans hle (not_lt.mp hc)
        · exact hall x h

theorem minByPos_fin_spec (l : List ℚ) :
    (minByPos F.fin l = none ↔ l = []) ∧
    ∀ m, minByPos F.fin l = some m → m ∈ l ∧ ∀ x ∈ l, m ≤ x := by
  cases l with
  | nil => exact ⟨by simp [minByPos], fun m h => by simp [minByPos] at h⟩
  | cons a t =>
    obtain ⟨m, hm, hmem, hle, hall⟩ := minByPos_go t a
    have hfold : minByPos F.fin (a :: t) = some m := by
      rw [minByPos, List.foldl_cons]
      have hz : minStep F.fin none a = some a := rfl
      rw [hz]
      exact hm
    refine ⟨by simp [hfold], fun m' hm' => ?_⟩
    rw [hfold] at hm'
    obtain rfl := Option.some.inj hm'
    refine ⟨?_, fun x hx => ?_⟩
    · rcases hmem with rfl | h
      · exact List.mem_cons_self _ _
      · exact List.mem_cons_of_mem _ h
    · rcases List.mem_cons.mp hx with rfl | h
      · exact hle
      · exact hall x h

theorem maxByPos_go (t : List ℚ) : ∀ m0 : ℚ,
    ∃ m, t.foldl (maxStep F.fin) (some m0) = some m ∧
      (m = m0 ∨ m ∈ t) ∧ m0 ≤ m ∧ ∀ x ∈ t, x ≤ m := by
  induction t with
  | nil =>
    intro m0
    exact ⟨m0, rfl, Or.inl rfl, le_refl _, by simp⟩
  | cons a t ih =>
    intro m0
    rw [List.foldl_cons]
    by_cases hc : a < m0
    · have hstep : maxStep F.fin (some m0) a = some m0 := by
        simp [maxStep, F.totalLt, hc]
      rw [hstep]
      obtain ⟨m, hm, hmem, hle, hall⟩ := ih m0
      refine ⟨m, hm, ?_, hle, fun x hx => ?_⟩
      · rcases hmem with rfl | h
        · exact Or.inl rfl
        · exact Or.inr (List.mem_cons_of_mem _ h)
      · rcases List.mem_cons.mp hx with rfl | h
        · exact le_trans hc.le hle
        · exact hall x h
    · have hstep : maxStep F.fin (some m0) a = some a := by
        simp [maxStep, F.totalLt, hc]
      rw [hstep]
      obtain ⟨m, hm, hmem, hle, hall⟩ := ih a
      refine ⟨m, hm, ?_, le_trans (not_lt.mp hc) hle, fun x hx => ?_⟩
      · rcases hmem with rfl | h
        · exact Or.inr (List.mem_cons_self _ _)
        · exact Or.inr (List.mem_cons_of_mem _ h)
      · rcases List.mem_cons.mp hx with rfl | h
        · exact hle
        · exact hall x h

theorem maxByPos_fin_spec (l : List ℚ) :
    (maxByPos F.fin l = none ↔ l = []) ∧
    ∀ m, maxByPos F.fin l = some m → m ∈ l ∧ ∀ x ∈ l, x ≤ m := by
  cases l with
  | nil => exact ⟨by simp [maxByPos], fun m h => by simp [maxByPos] at h⟩
  | cons a t =>
    obtain ⟨m, hm, hmem, hle, hall⟩ := maxByPos_go t a
    have hfold : maxByPos F.fin (a :: t) = some m := by
      rw [maxByPos, List.foldl_cons]
      have hz : maxStep F.fin none a = some a := rfl
      rw [hz]
      exact hm
    refine ⟨by simp [hfold], fun m' hm' => ?_⟩
    rw [hfold] at hm'
    obtain rfl := Option.some.inj hm'
    refine ⟨?_, fun x hx => ?_⟩
    · rcases hmem with rfl | h
      · exact List.mem_cons_self _ _
      · exact List.mem_cons_of_mem _ h
    · rcases List.mem_cons.mp hx with rfl | h
      · exact hle
      · exact hall x h

/-- Amended claim C3: `range_y` takes its min over every line's data-derived
min together with the specified `min_y`, and its max over every line's max
together with the specified `max_y`; unlike `range_x`, a specified min is never
a max candidate (and vice versa), and the result is `None` as soon as either
candidate list is empty. -/
theorem C3_range_y_amended (lineRanges : List (Option (ℚ × ℚ))) (min_y max_y : Option ℚ) :
    (range_y F.fin lineRanges min_y max_y = none ↔
      ((lineRanges.map (Option.map Prod.fst)) ++ [min_y]).reduceOption = [] ∨
      ((lineRanges.map (Option.map Prod.snd)) ++ [max_y]).reduceOption = []) ∧
    ∀ mn mx, range_y F.fin lineRanges min_y max_y = some (mn, mx) →
      (mn ∈ ((lineRanges.map (Option.map Prod.fst)) ++ [min_y]).reduceOption ∧
        ∀ x ∈ ((lineRanges.map (Option.map Prod.fst)) ++ [min_y]).reduceOption, mn ≤ x) ∧
      (mx ∈ ((lineRanges.map (Option.map Prod.snd)) ++ [max_y]).reduceOption ∧
        ∀ x ∈ ((lineRanges.map (Option.map Prod.snd)) ++ [max_y]).reduceOption, x ≤ mx) := by
  set mins := ((lineRanges.map (Option.map Prod.fst)) ++ [min_y]).reduceOption with hminsdef
  set maxes := ((lineRanges.map (Option.map Prod.snd)) ++ [max_y]).reduceOption with hmaxesdef
  have hry : range_y F.fin lineRanges min_y max_y =
      (minByPos F.fin mins).bind fun mn => (maxByPos F.fin maxes).map fun mx => (mn, mx) := rfl
  cases hmn : minByPos F.fin mins with
  | none =>
    have hnil := (minByPos_fin_spec mins).1.mp hmn
    rw [hry, hmn]
    refine ⟨iff_of_true rfl (Or.inl hnil), fun mn mx h => absurd h (by simp)⟩
  | some m =>
    cases hmx : maxByPos F.fin maxes with
    | none =>
      have hnil := (maxByPos_fin_spec maxes).1.mp hmx
      rw [hry, hmn, hmx]
      refine ⟨iff_of_true rfl (Or.inr hnil), fun mn mx h => absurd h (by simp)⟩
    | some M =>
      rw [hry, hmn, hmx]
      have hmins := (minByPos_fin_spec mins).2 m hmn
      have hmaxes := (maxByPos_fin_spec maxes).2 M hmx
      refine ⟨iff_of_false (by simp) ?_, fun mn mx h => ?_⟩
      · rintro (h | h)
        · rw [h] at hmins
          exact absurd hmins.1 (List.not_mem_nil m)
        · rw [h] at hmaxes
          exact absurd hmaxes.1 (List.not_mem_nil M)
      · have hpair := Option.some.inj h
        have h1 := congrArg Prod.fst hpair
        have h2 := congrArg Prod.snd hpair
        dsimp only at h1 h2
        rw [← h1, ← h2]
        exact ⟨hmins, hmaxes⟩

/-- Counterexample for C3 as stated: with one line of data range `(1,3)` (the
range of data `[1,2,3]`) and a specified `min_y = 5`, the code computes
`(1, 3)` while the X-identical reconciliation asserted by the claim would
compute `(1, 5)` — the specified min is not a max candidate in `range_y`. -/
theorem C3_counterexample :
    data_range ([(1 : ℚ), 2, 3].map F.fin) [(1 : ℚ), 2, 3] = some (1, 3) ∧
    range_y F.fin [some ((1 : ℚ), 3)] (some 5) none = some (1, 3) ∧
    range_y_asserted F.fin [some ((1 : ℚ), 3)] (some 5) none = some (1, 5) ∧
    ¬(range_y F.fin [some ((1 : ℚ), 3)] (some 5) none =
      range_y_asserted F.fin [some ((1 : ℚ), 3)] (some 5) none) :=
  ⟨by decide, by decide, by decide, by decide⟩

/-- Witness for the amended C3 at the counterexample input. -/
theorem C3_range_y_amended_witness :
    ((1 : ℚ) ∈ (([some ((1 : ℚ), 3)].map (Option.map Prod.fst)) ++ [some 5]).reduceOption ∧
      ∀ x ∈ (([some ((1 : ℚ), 3)].map (Option.map Prod.fst)) ++ [some 5]).reduceOption,
        (1 : ℚ) ≤ x) ∧
    ((3 : ℚ) ∈ (([some ((1 : ℚ), 3)].map (Option.map Prod.snd)) ++ [(none : Option ℚ)]).reduceOption ∧
      ∀ x ∈ (([some ((1 : ℚ), 3)].map (Option.map Prod.snd)) ++ [(none : Option ℚ)]).reduceOption,
        x ≤ (3 : ℚ)) :=
  (C3_range_y_amended [some ((1 : ℚ), 3)] (some 5) none).2 1 3 (by decide)
